import Mathlib

/-!
Verification of the process-orchestration and security layer of the
claude-codex-orchestrator repository.

The development shallowly embeds the TypeScript sources:
- src/security.ts (re-exported through src/types/index.ts):
  validateWorkingDir, sanitizeErrorOutput (SENSITIVE_PATTERNS), ProcessSemaphore
- src/codex/client.ts: callCodex and its safeResolve one-shot finalizer
- src/codex/parser.ts: parseJsonlLine, parseJsonlStream, extractFinalMessage,
  extractFilesChanged, extractCommandsRun, buildCodexResult

Strings are modelled by Lean String, byte counts of Node Buffers by UTF-8
byte length, and the JavaScript regular expressions of SENSITIVE_PATTERNS by
explicit leftmost-match scanners on lists of characters.  The JavaScript
whitespace class is modelled by its ASCII members, which covers every input
appearing in the development.
-/

namespace CodexOrch

/-- Character class of the JavaScript whitespace escape in regular
expressions, restricted to its ASCII members. -/
def isJsSpace (c : Char) : Bool :=
  c == ' ' || c == '\t' || c == '\n' || c == '\r' || c == '\x0b' || c == '\x0c'

/-- JavaScript word characters, as used by the boundary assertion in the
pattern for the root home directory. -/
def isWordChar (c : Char) : Bool :=
  c.isAlphanum || c == '_'

/-- Replacement token used by sanitizeErrorOutput in src/security.ts. -/
def redactedTok : String := "[REDACTED]"

/-- Local-part character class of the email pattern in SENSITIVE_PATTERNS. -/
def isEmailLocalChar (c : Char) : Bool :=
  c.isAlphanum || c == '.' || c == '_' || c == '%' || c == '+' || c == '-'

/-- Domain character class of the email pattern in SENSITIVE_PATTERNS. -/
def isEmailDomainChar (c : Char) : Bool :=
  c.isAlphanum || c == '.' || c == '-'

/-- Character class of the OpenAI key pattern body in SENSITIVE_PATTERNS. -/
def isSkChar (c : Char) : Bool :=
  c.isAlphanum || c == '_' || c == '-'

/-- Matcher for the home-directory pattern of SENSITIVE_PATTERNS.  Returns
the length of the (leftmost-anchored, greedy) match at the head of the
character list, if any. -/
def tryHome (cs : List Char) : Option Nat :=
  if cs.take 6 = ['/', 'h', 'o', 'm', 'e', '/'] then
    let run := (cs.drop 6).takeWhile fun c => !(c == '/') && !isJsSpace c
    if run.length = 0 then none else some (6 + run.length)
  else none

/-- Matcher for the macOS home-directory pattern of SENSITIVE_PATTERNS. -/
def tryUsers (cs : List Char) : Option Nat :=
  if cs.take 7 = ['/', 'U', 's', 'e', 'r', 's', '/'] then
    let run := (cs.drop 7).takeWhile fun c => !(c == '/') && !isJsSpace c
    if run.length = 0 then none else some (7 + run.length)
  else none

/-- Matcher for the root-home pattern of SENSITIVE_PATTERNS.  The trailing
boundary assertion holds exactly when the next character is absent or a
non-word character, since the preceding character of the literal is a word
character. -/
def tryRoot (cs : List Char) : Option Nat :=
  if cs.take 5 = ['/', 'r', 'o', 'o', 't'] then
    match cs.drop 5 with
    | [] => some 5
    | c :: _ => if isWordChar c then none else some 5
  else none

/-- Matcher for the email pattern of SENSITIVE_PATTERNS.  Both character
classes exclude the at sign, so the greedy runs never backtrack. -/
def tryEmail (cs : List Char) : Option Nat :=
  let l := cs.takeWhile isEmailLocalChar
  if l.length = 0 then none
  else
    match cs.drop l.length with
    | '@' :: rest =>
      let d := rest.takeWhile isEmailDomainChar
      if d.length = 0 then none else some (l.length + 1 + d.length)
    | _ => none

/-- One alternative of the credential-assignment pattern: a case-insensitive
keyword, an equals sign, and a nonempty greedy run of non-space characters. -/
def tryKw (kw : String) (cs : List Char) : Option Nat :=
  let k := kw.data
  if (cs.take k.length).map Char.toLower = k then
    match cs.drop k.length with
    | '=' :: rest =>
      let v := rest.takeWhile fun c => !isJsSpace c
      if v.length = 0 then none else some (k.length + 1 + v.length)
    | _ => none
  else none

/-- Matcher for the credential-assignment pattern of SENSITIVE_PATTERNS.
The alternatives are tried in the order of the source regular expression;
their first characters are pairwise distinct. -/
def tryCred (cs : List Char) : Option Nat :=
  match tryKw "key" cs with
  | some n => some n
  | none =>
  match tryKw "token" cs with
  | some n => some n
  | none =>
  match tryKw "secret" cs with
  | some n => some n
  | none =>
  match tryKw "password" cs with
  | some n => some n
  | none => tryKw "api_key" cs

/-- Matcher for the OpenAI API key pattern of SENSITIVE_PATTERNS: the
literal sk-, then a greedy run of at least twenty key characters. -/
def trySk (cs : List Char) : Option Nat :=
  if cs.take 3 = ['s', 'k', '-'] then
    let run := (cs.drop 3).takeWhile isSkChar
    if run.length < 20 then none else some (3 + run.length)
  else none

/-- Matcher for the GitHub token pattern of SENSITIVE_PATTERNS: the literal
ghp_, then exactly thirty-six alphanumeric characters. -/
def tryGhp (cs : List Char) : Option Nat :=
  if cs.take 4 = ['g', 'h', 'p', '_'] then
    let run := (cs.drop 4).takeWhile Char.isAlphanum
    if run.length < 36 then none else some (4 + 36)
  else none

/-- Fueled scanner implementing the global replace of a JavaScript regular
expression with the constant replacement token: at each position the matcher
is tried; on a match the token is emitted and scanning resumes after the
match.  All matchers consume at least one character, and the fuel is
initialised to the length of the input, so fuel never runs out. -/
def replaceMatchesF (pat : List Char → Option Nat) : Nat → List Char → List Char
  | 0, l => l
  | _ + 1, [] => []
  | fuel + 1, c :: cs =>
    match pat (c :: cs) with
    | some n => redactedTok.data ++ replaceMatchesF pat fuel (cs.drop (n - 1))
    | none => c :: replaceMatchesF pat fuel cs

/-- Global replace of one sensitive pattern by the replacement token. -/
def replaceMatches (pat : List Char → Option Nat) (l : List Char) : List Char :=
  replaceMatchesF pat l.length l

/-- One pass of String.prototype.replace with a global pattern and the
constant replacement token. -/
def replaceAllPat (pat : List Char → Option Nat) (s : String) : String :=
  String.mk (replaceMatches pat s.data)

/-- The SENSITIVE_PATTERNS array of src/security.ts, in source order. -/
def sensitivePatterns : List (List Char → Option Nat) :=
  [tryHome, tryUsers, tryRoot, tryEmail, tryCred, trySk, tryGhp]

/-- sanitizeErrorOutput from src/security.ts: fold the replacement of every
sensitive pattern, in order, over the input text. -/
def sanitizeErrorOutput (text : String) : String :=
  sensitivePatterns.foldl (fun acc p => replaceAllPat p acc) text

/-- Whether some sensitive pattern matches at some position of the text. -/
def anyPosMatch (pat : List Char → Option Nat) : List Char → Bool
  | [] => false
  | c :: cs => (pat (c :: cs)).isSome || anyPosMatch pat cs

/-- Whether any of the sensitive patterns still matches inside the text. -/
def hasSensitiveMatch (s : String) : Bool :=
  sensitivePatterns.any fun p => anyPosMatch p s.data

/-- JavaScript String.prototype.trim, modulo the exact whitespace set. -/
def jsTrim (s : String) : String :=
  String.mk (((s.data.dropWhile Char.isWhitespace).reverse.dropWhile
    Char.isWhitespace).reverse)

/-- JavaScript String.prototype.startsWith. -/
def strStartsWith (pre s : String) : Bool :=
  pre.data.isPrefixOf s.data

/-- JavaScript String.prototype.includes. -/
def listHasInfix (sub : List Char) : List Char → Bool
  | [] => sub.isEmpty
  | c :: t => sub.isPrefixOf (c :: t) || listHasInfix sub t

/-- JavaScript String.prototype.includes on strings. -/
def strIncludes (s sub : String) : Bool :=
  listHasInfix sub.data s.data

/-- Split a character list at slashes, accumulating the current segment in
reverse. -/
def splitSlashAux : List Char → List Char → List String
  | acc, [] => [String.mk acc.reverse]
  | acc, c :: cs =>
    if c = '/' then String.mk acc.reverse :: splitSlashAux [] cs
    else splitSlashAux (c :: acc) cs

/-- Split a string into its slash-separated segments. -/
def splitOnSlash (s : String) : List String :=
  splitSlashAux [] s.data

/-- Rejoin segments with slashes. -/
def joinSlash : List String → String
  | [] => ""
  | [s] => s
  | s :: rest => s ++ "/" ++ joinSlash rest

/-- Segment normalisation of Node path.resolve: empty and dot segments are
dropped, a dot-dot segment removes the previous segment. -/
def normalizeSegments (segs : List String) : List String :=
  segs.foldl
    (fun acc seg =>
      if seg = "" || seg = "." then acc
      else if seg = ".." then acc.dropLast
      else acc ++ [seg])
    []

/-- Node path.resolve with a single argument, for POSIX paths: resolve the
input against the current working directory into an absolute path with no
relative segments. -/
def resolvePath (cwd p : String) : String :=
  let full := if strStartsWith "/" p then p else cwd ++ "/" ++ p
  "/" ++ joinSlash (normalizeSegments (splitOnSlash full))

/-- Abstract filesystem view used by validateWorkingDir: existence of a path
and symlink-following real-path resolution (none when realpathSync throws).
Computed fresh per call, matching the source. -/
structure FileSystem where
  existsPath : String → Bool
  realpath : String → Option String

/-- PathValidationResult from src/security.ts. -/
structure PathValidationResult where
  valid : Bool
  resolved : String
  error : Option String
deriving DecidableEq, Repr

/-- validateWorkingDir from src/security.ts: reject empty input, resolve,
require existence, follow symlinks, and accept only if the real path equals
a normalised allowed root or extends it past a path separator. -/
def validateWorkingDir (fs : FileSystem) (cwd : String) (inputPath : String)
    (allowedRoots : List String) : PathValidationResult :=
  if jsTrim inputPath = "" then
    ⟨false, "", some "Path is empty"⟩
  else
    let resolved := resolvePath cwd inputPath
    if fs.existsPath resolved then
      match fs.realpath resolved with
      | none =>
        ⟨false, "", some ("Cannot resolve real path for \"" ++ resolved ++ "\"")⟩
      | some realPath =>
        if allowedRoots.any (fun root =>
            let normalizedRoot := resolvePath cwd root
            realPath == normalizedRoot ||
              strStartsWith (normalizedRoot ++ "/") realPath) then
          ⟨true, realPath, none⟩
        else
          ⟨false, "", some ("Path \"" ++ realPath ++ "\" is outside allowed directories")⟩
    else
      ⟨false, "", some ("Path \"" ++ resolved ++ "\" does not exist")⟩

/-- ProcessSemaphore state from src/security.ts.  The granted list is ghost
instrumentation recording, in order, which acquirers have been handed a
slot (directly or by release hand-off). -/
structure ProcessSemaphore where
  current : Int
  max : Int
  waitQueue : List Nat
  granted : List Nat
deriving DecidableEq, Repr

/-- The ProcessSemaphore constructor: it stores the bound and performs no
validation. -/
def mkProcessSemaphore (maxConcurrent : Int) : ProcessSemaphore :=
  ⟨0, maxConcurrent, [], []⟩

/-- The two operations of the gate; an acquire is tagged with the identity
of the caller so FIFO hand-off can be observed. -/
inductive SemOp where
  | acquire (id : Nat)
  | release
deriving DecidableEq, Repr

/-- One acquire or release of ProcessSemaphore.  acquire increments the
count when below the bound and otherwise appends the caller to the wait
queue; release decrements the count, then the shifted head waiter, if any,
re-increments it and is granted the slot. -/
def semStep (s : ProcessSemaphore) : SemOp → ProcessSemaphore
  | .acquire id =>
    if s.current < s.max then
      { s with current := s.current + 1, granted := s.granted ++ [id] }
    else
      { s with waitQueue := s.waitQueue ++ [id] }
  | .release =>
    match s.waitQueue with
    | [] => { s with current := s.current - 1 }
    | w :: rest =>
      { s with current := s.current - 1 + 1, waitQueue := rest,
               granted := s.granted ++ [w] }

/-- Run a sequence of gate operations from a freshly constructed gate. -/
def semRun (maxConcurrent : Int) (ops : List SemOp) : ProcessSemaphore :=
  ops.foldl semStep (mkProcessSemaphore maxConcurrent)

/-- Config-schema bound on maxConcurrentProcesses from the entry point
(Zod: min 1, max 10). -/
def configMaxConcurrentOk (n : Int) : Bool :=
  1 ≤ n && n ≤ 10

/-- CodexItem from src/types/index.ts. -/
inductive CodexItem where
  | agentMessage (id : String) (text : String) (status : Option String)
  | commandExecution (id : String) (command : String) (status : String)
      (output : Option String) (exitCode : Option Int)
  | fileChange (id : String) (path : String) (action : String)
deriving DecidableEq, Repr

/-- CodexEvent from src/types/index.ts; unrecognised type discriminators are
kept as opaque events. -/
inductive CodexEvent where
  | threadStarted (threadId : String)
  | turnStarted
  | turnCompleted
  | itemStarted (item : CodexItem)
  | itemCompleted (item : CodexItem)
  | errorEvent (message : Option String)
  | unrecognized (type : String)
deriving DecidableEq, Repr

/-- parseJsonlLine from src/codex/parser.ts, parameterised by an abstract
JSON decoder standing for JSON.parse plus the string-typed discriminator
guard: trim the line, yield nothing for an empty line or a failed decode. -/
def parseJsonlLine (jsonDecode : String → Option CodexEvent) (line : String) :
    Option CodexEvent :=
  let trimmed := jsTrim line
  if trimmed = "" then none else jsonDecode trimmed

/-- parseJsonlStream from src/codex/parser.ts: split on line breaks, map
parseJsonlLine, drop non-events. -/
def parseJsonlStream (jsonDecode : String → Option CodexEvent) (raw : String) :
    List CodexEvent :=
  (raw.splitOn "\n").filterMap (parseJsonlLine jsonDecode)

/-- extractFinalMessage from src/codex/parser.ts: collect the text of every
completed agent message in order and take the last, defaulting to the empty
string. -/
def extractFinalMessage (events : List CodexEvent) : String :=
  let agentMessages := events.foldl
    (fun acc e =>
      match e with
      | .itemCompleted (.agentMessage _ text _) => acc ++ [text]
      | _ => acc)
    []
  (agentMessages.getLast?).getD ""

/-- Insertion-ordered deduplication, the behaviour of spreading a JS Set. -/
def insertionDedup (l : List String) : List String :=
  l.foldl (fun acc x => if acc.contains x then acc else acc ++ [x]) []

/-- extractFilesChanged from src/codex/parser.ts. -/
def extractFilesChanged (events : List CodexEvent) : List String :=
  insertionDedup (events.foldl
    (fun acc e =>
      match e with
      | .itemCompleted (.fileChange _ path _) => acc ++ [path]
      | _ => acc)
    [])

/-- extractCommandsRun from src/codex/parser.ts: ordered, not deduplicated. -/
def extractCommandsRun (events : List CodexEvent) : List String :=
  events.foldl
    (fun acc e =>
      match e with
      | .itemCompleted (.commandExecution _ command _ _ _) => acc ++ [command]
      | _ => acc)
    []

/-- CodexErrorCode from src/types/index.ts. -/
inductive CodexErrorCode where
  | notFound
  | permissionDenied
  | timeout
  | outputTooLarge
  | authenticationFailed
  | executionFailed
  | stdinWriteFailed
  | unknown
deriving DecidableEq, Repr

/-- CodexError from src/types/index.ts. -/
structure CodexError where
  code : CodexErrorCode
  message : String
  details : Option String
deriving DecidableEq, Repr

/-- CodexResult from src/types/index.ts. -/
structure CodexResult where
  success : Bool
  events : List CodexEvent
  finalMessage : String
  filesChanged : List String
  commandsRun : List String
  error : Option CodexError
deriving DecidableEq, Repr

/-- A failure result of callCodex: empty payload plus the error. -/
def failResult (e : CodexError) : CodexResult :=
  ⟨false, [], "", [], [], some e⟩

/-- detectErrorCode from src/codex/client.ts: keyword classification of the
combined error text. -/
def detectErrorCode (message : String) : CodexErrorCode :=
  let lower := message.toLower
  if strIncludes lower "authentication" || strIncludes lower "unauthorized" ||
      strIncludes lower "login required" then
    .authenticationFailed
  else if strIncludes lower "permission denied" then
    .permissionDenied
  else if strIncludes lower "not found" then
    .notFound
  else
    .executionFailed

/-- UTF-8 byte length of a character list, the byte count of a Node Buffer
holding the corresponding text. -/
def byteLenL : List Char → Nat
  | [] => 0
  | c :: cs => c.utf8Size + byteLenL cs

/-- UTF-8 byte length of a string. -/
def byteLen (s : String) : Nat := byteLenL s.data

/-- MAX_OUTPUT_SIZE from src/codex/client.ts. -/
def maxOutputSize : Nat := 1024 * 1024

/-- The details text of the output-size error: the byte count divided by
1024 twice and rendered with two decimals.  The floating-point toFixed of
the source is modelled by exact rounding to the nearest hundredth. -/
def formatMB2 (n : Nat) : String :=
  let centi := (n * 100 + 524288) / 1048576
  toString (centi / 100) ++ "." ++
    (if centi % 100 < 10 then "0" ++ toString (centi % 100)
     else toString (centi % 100))

/-- The OUTPUT_TOO_LARGE result built by the stdout data handler. -/
def outputTooLargeResult (n : Nat) : CodexResult :=
  failResult ⟨.outputTooLarge, "Output exceeds 1MB limit",
    some ("Output size: " ++ formatMB2 n ++ "MB")⟩

/-- The options of one callCodex call that the event handlers consult. -/
structure CallOptions where
  timeoutMs : Nat
  json : Bool
deriving DecidableEq, Repr

/-- The mutable state of one callCodex call: the one-shot resolution latch,
the cleanup flags set by safeResolve, the output accumulators, and the
resolved result. -/
structure CallState where
  resolved : Bool
  timerCleared : Bool
  childKilled : Bool
  slotReleased : Bool
  stdoutChunks : List String
  stderrChunks : List String
  stdoutSize : Nat
  stderrSize : Nat
  result : Option CodexResult
deriving DecidableEq, Repr

/-- State at the start of a call, after spawning. -/
def initCallState : CallState :=
  ⟨false, false, false, false, [], [], 0, 0, none⟩

/-- Sanitisation applied by safeResolve: when the result carries an error
with truthy (nonempty) details, the details are passed through
sanitizeErrorOutput; everything else is returned unchanged. -/
def sanitizeResultDetails (r : CodexResult) : CodexResult :=
  match r.error with
  | some e =>
    match e.details with
    | some d =>
      if d = "" then r
      else { r with error := some { e with details := some (sanitizeErrorOutput d) } }
    | none => r
  | none => r

/-- safeResolve from src/codex/client.ts: a no-op once resolved; otherwise
it latches resolution, clears the deadline timer, removes the listeners,
kills the child if still alive, sanitises error details, releases the
semaphore slot, and records the result. -/
def safeResolve (s : CallState) (r : CodexResult) : CallState :=
  if s.resolved then s
  else
    { s with
        resolved := true
        timerCleared := true
        childKilled := true
        slotReleased := true
        result := some (sanitizeResultDetails r) }

/-- The asynchronous signals that can reach one call: output-channel data,
error-channel data, a spawn error carrying an errno code, process close
with exit code and signal, an input-channel write error, and deadline
expiry. -/
inductive ChildEvent where
  | stdoutData (data : String)
  | stderrData (data : String)
  | procError (errnoCode : Option String) (msg : String)
  | closed (exitCode : Option Int) (signal : Option String)
  | stdinError (errnoCode : Option String) (msg : String)
  | timeoutFired
deriving DecidableEq, Repr

/-- The stdout data handler: add the byte count, resolve with
OUTPUT_TOO_LARGE when the accumulated size exceeds the cap, otherwise keep
the chunk. -/
def onStdoutData (s : CallState) (d : String) : CallState :=
  let newSize := s.stdoutSize + byteLen d
  if newSize > maxOutputSize then
    safeResolve { s with stdoutSize := newSize } (outputTooLargeResult newSize)
  else
    { s with stdoutSize := newSize, stdoutChunks := s.stdoutChunks ++ [d] }

/-- The stderr data handler: add the byte count and keep the chunk only
while the accumulated size stays within the cap; it never resolves. -/
def onStderrData (s : CallState) (d : String) : CallState :=
  let newSize := s.stderrSize + byteLen d
  { s with
      stderrSize := newSize
      stderrChunks :=
        if newSize ≤ maxOutputSize then s.stderrChunks ++ [d]
        else s.stderrChunks }

/-- The spawn error handler: classify ENOENT and EACCES, defaulting to
UNKNOWN, and resolve. -/
def onProcError (s : CallState) (errnoCode : Option String) (msg : String) :
    CallState :=
  let e : CodexError :=
    if errnoCode = some "ENOENT" then
      ⟨.notFound, "Codex CLI not found", some "Install: npm install -g @openai/codex"⟩
    else if errnoCode = some "EACCES" then
      ⟨.permissionDenied, "Permission denied", some "Check: chmod +x $(which codex)"⟩
    else
      ⟨.unknown, "Failed to start Codex CLI", some msg⟩
  safeResolve s (failResult e)

/-- Exit code rendering inside the failure message, with the JS null. -/
def showExitCode : Option Int → String
  | some n => toString n
  | none => "null"

/-- The close handler: skip when already resolved; a SIGTERM or SIGKILL
exit resolves with TIMEOUT regardless of the exit code; exit code zero
resolves with success (parsing the stream in json mode); any other exit
classifies the combined text and resolves with the classified failure. -/
def onClosed (jsonDecode : String → Option CodexEvent) (opts : CallOptions)
    (s : CallState) (exitCode : Option Int) (signal : Option String) : CallState :=
  if s.resolved then s
  else
    let stdout := jsTrim (String.join s.stdoutChunks)
    let stderr := jsTrim (String.join s.stderrChunks)
    if signal = some "SIGTERM" || signal = some "SIGKILL" then
      safeResolve s (failResult
        ⟨.timeout, "Codex CLI timeout after " ++ toString opts.timeoutMs ++ "ms", none⟩)
    else if exitCode = some 0 then
      if opts.json then
        let events := parseJsonlStream jsonDecode stdout
        safeResolve s
          ⟨true, events, extractFinalMessage events, extractFilesChanged events,
            extractCommandsRun events, none⟩
      else
        safeResolve s ⟨true, [], stdout, [], [], none⟩
    else
      let errorMessage :=
        if stderr ≠ "" then stderr
        else if stdout ≠ "" then stdout
        else "Unknown error"
      safeResolve s (failResult
        ⟨detectErrorCode errorMessage,
          "Codex CLI failed with exit code " ++ showExitCode exitCode,
          some errorMessage⟩)

/-- The stdin error handler: EPIPE is deferred to the close handler; any
other write error resolves with STDIN_WRITE_FAILED. -/
def onStdinError (s : CallState) (errnoCode : Option String) (msg : String) :
    CallState :=
  if errnoCode = some "EPIPE" then s
  else
    safeResolve s (failResult
      ⟨.stdinWriteFailed, "Failed to write prompt to Codex CLI", some msg⟩)

/-- The deadline timer callback: when not yet resolved, send the graceful
kill (the forceful kill five seconds later is outside this state model) and
resolve with TIMEOUT. -/
def onTimeoutFired (opts : CallOptions) (s : CallState) : CallState :=
  if s.resolved then s
  else
    safeResolve { s with childKilled := true } (failResult
      ⟨.timeout, "Codex CLI timeout after " ++ toString opts.timeoutMs ++ "ms", none⟩)

/-- Dispatch of one asynchronous signal.  safeResolve removes all listeners
and clears the timer at the moment resolved is latched, so once resolved no
handler body runs any more. -/
def step (jsonDecode : String → Option CodexEvent) (opts : CallOptions)
    (s : CallState) (ev : ChildEvent) : CallState :=
  if s.resolved then s
  else
    match ev with
    | .stdoutData d => onStdoutData s d
    | .stderrData d => onStderrData s d
    | .procError c m => onProcError s c m
    | .closed code sig => onClosed jsonDecode opts s code sig
    | .stdinError c m => onStdinError s c m
    | .timeoutFired => onTimeoutFired opts s

/-- One callCodex call as the fold of its asynchronous signals. -/
def runCall (jsonDecode : String → Option CodexEvent) (opts : CallOptions)
    (s : CallState) (evs : List ChildEvent) : CallState :=
  evs.foldl (step jsonDecode opts) s

/-- The projection the spec reduction uses: the text of a completed agent
message, nothing for every other event. -/
def completedAgentText : CodexEvent → Option String
  | .itemCompleted (.agentMessage _ text _) => some text
  | _ => none

/-- Modelled from the spec: finalMessage is the text of the last
ItemCompleted event whose item is an AgentMessage, the empty string when no
such event exists. -/
def specFinalMessage (events : List CodexEvent) : String :=
  ((events.filterMap completedAgentText).getLast?).getD ""

/-- A string of one byte more than the output cap, used to exercise the
size limit. -/
def bigA : String := String.mk (List.replicate (maxOutputSize + 1) 'a')

/-- One gate step preserves the two gate invariants: the count never
exceeds the bound, and the count sits exactly at the bound whenever the
wait queue is nonempty. -/
theorem semStep_inv {s : ProcessSemaphore} (op : SemOp)
    (h1 : s.current ≤ s.max) (h2 : s.waitQueue ≠ [] → s.current = s.max) :
    (semStep s op).max = s.max ∧ (semStep s op).current ≤ s.max ∧
      ((semStep s op).waitQueue ≠ [] → (semStep s op).current = s.max) := by
  cases op with
  | acquire id =>
    by_cases hlt : s.current < s.max
    · have hq : s.waitQueue = [] := by
        by_contra hne
        exact absurd (h2 hne) (by omega)
      simp [semStep, hlt, hq]
      omega
    · simp [semStep, hlt]
      omega
  | release =>
    cases hq : s.waitQueue with
    | nil =>
      simp [semStep, hq]
      omega
    | cons w rest =>
      have hcur : s.current = s.max := h2 (by simp [hq])
      constructor
      · simp [semStep, hq]
      constructor
      · simp [semStep, hq]; omega
      · intro _
        simp [semStep, hq]
        omega

/-- The gate invariants hold at every state reachable from a fresh gate. -/
theorem semFold_inv (s : ProcessSemaphore) (ops : List SemOp)
    (h1 : s.current ≤ s.max) (h2 : s.waitQueue ≠ [] → s.current = s.max) :
    (ops.foldl semStep s).max = s.max ∧ (ops.foldl semStep s).current ≤ s.max ∧
      ((ops.foldl semStep s).waitQueue ≠ [] →
        (ops.foldl semStep s).current = s.max) := by
  induction ops generalizing s with
  | nil => exact ⟨rfl, h1, h2⟩
  | cons op rest ih =>
    simp only [List.foldl_cons]
    obtain ⟨hm, hc, hw⟩ := semStep_inv op h1 h2
    have ha : (semStep s op).current ≤ (semStep s op).max := by rw [hm]; exact hc
    have hb : (semStep s op).waitQueue ≠ [] →
        (semStep s op).current = (semStep s op).max := by rw [hm]; exact hw
    obtain ⟨im, ic, iw⟩ := ih (semStep s op) ha hb
    refine ⟨im.trans hm, ?_, ?_⟩
    · have := ic; rwa [hm] at this
    · intro hq
      have := iw hq; rwa [hm] at this

/-- The gate invariants for a run from a fresh gate with nonnegative
bound. -/
theorem semRun_inv (maxConcurrent : Int) (hnn : 0 ≤ maxConcurrent)
    (ops : List SemOp) :
    (semRun maxConcurrent ops).max = maxConcurrent ∧
      (semRun maxConcurrent ops).current ≤ maxConcurrent ∧
      ((semRun maxConcurrent ops).waitQueue ≠ [] →
        (semRun maxConcurrent ops).current = maxConcurrent) := by
  have := semFold_inv (mkProcessSemaphore maxConcurrent) ops
    (by simpa [mkProcessSemaphore] using hnn) (by simp [mkProcessSemaphore])
  simpa [semRun, mkProcessSemaphore] using this

/-- Claim C3: for every gate with bound at least one and every reachable
state, the active count never exceeds the bound; a release performed while
waiters exist hands the freed slot to exactly the head (longest-waiting)
waiter, leaving the count unchanged; and an acquire arriving while waiters
exist is appended to the back of the queue, never granted ahead of them. -/
theorem processSemaphore_bounded_fifo (maxConcurrent : Int)
    (hmax : 1 ≤ maxConcurrent) (ops : List SemOp) :
    (semRun maxConcurrent ops).current ≤ maxConcurrent ∧
      (∀ w rest, (semRun maxConcurrent ops).waitQueue = w :: rest →
        semStep (semRun maxConcurrent ops) .release =
          { semRun maxConcurrent ops with
              waitQueue := rest
              granted := (semRun maxConcurrent ops).granted ++ [w] }) ∧
      (∀ id, (semRun maxConcurrent ops).waitQueue ≠ [] →
        semStep (semRun maxConcurrent ops) (.acquire id) =
          { semRun maxConcurrent ops with
              waitQueue := (semRun maxConcurrent ops).waitQueue ++ [id] }) := by
  obtain ⟨hm, hc, hw⟩ := semRun_inv maxConcurrent (by omega) ops
  refine ⟨hc, ?_, ?_⟩
  · intro w rest hq
    have hadd : (semRun maxConcurrent ops).current - 1 + 1 =
        (semRun maxConcurrent ops).current := by omega
    simp [semStep, hq, hadd]
  · intro id hne
    have hcur : (semRun maxConcurrent ops).current = maxConcurrent := hw hne
    have hnlt : ¬ (semRun maxConcurrent ops).current <
        (semRun maxConcurrent ops).max := by
      rw [hcur, hm]; omega
    simp [semStep, hnlt]

/-- Witness for C3 at bound one with two acquirers and one release. -/
theorem processSemaphore_bounded_fifo_witness :
    (1 : Int) ≤ 1 ∧
      (semRun 1 [SemOp.acquire 0, SemOp.acquire 1]).current ≤ 1 :=
  ⟨by decide, (processSemaphore_bounded_fifo 1 (by decide)
    [SemOp.acquire 0, SemOp.acquire 1]).1⟩

/-- Counterexample for C8: constructing the gate with bound zero is not
rejected; the constructor returns a live gate, and an acquire on it is
queued rather than refused. -/
theorem semaphore_zero_not_rejected :
    mkProcessSemaphore 0 = ⟨0, 0, [], []⟩ ∧
      (semStep (mkProcessSemaphore 0) (.acquire 7)).granted = [] ∧
      (semStep (mkProcessSemaphore 0) (.acquire 7)).waitQueue = [7] := by
  decide

/-- Claim C8 (amended): the ProcessSemaphore constructor performs no
validation and stores bound zero verbatim; every acquire on such a gate is
queued and never granted; the bound of zero is rejected only by the
configuration schema of the entry point. -/
theorem semaphore_zero_accepted_queues_forever :
    (mkProcessSemaphore 0).max = 0 ∧
      (∀ id, semStep (mkProcessSemaphore 0) (.acquire id) =
        { mkProcessSemaphore 0 with waitQueue := [id] }) ∧
      configMaxConcurrentOk 0 = false := by
  refine ⟨rfl, ?_, by decide⟩
  intro id
  simp [semStep, mkProcessSemaphore]

/-- The completed-agent-message fold of the source accumulates exactly the
filterMap of completedAgentText. -/
theorem extract_fold_eq_filterMap (events : List CodexEvent) (acc : List String) :
    events.foldl
      (fun acc e =>
        match e with
        | .itemCompleted (.agentMessage _ text _) => acc ++ [text]
        | _ => acc)
      acc = acc ++ events.filterMap completedAgentText := by
  induction events generalizing acc with
  | nil => simp
  | cons e rest ih =>
    cases e with
    | itemCompleted item =>
      cases item with
      | agentMessage id text status => simp [completedAgentText, ih]
      | commandExecution id command status output exitCode =>
        simp [completedAgentText, ih]
      | fileChange id path action => simp [completedAgentText, ih]
    | itemStarted item => cases item <;> simp [completedAgentText, ih]
    | threadStarted threadId => simp [completedAgentText, ih]
    | turnStarted => simp [completedAgentText, ih]
    | turnCompleted => simp [completedAgentText, ih]
    | errorEvent message => simp [completedAgentText, ih]
    | unrecognized type => simp [completedAgentText, ih]

/-- Claim C9: for every event sequence, extractFinalMessage equals the text
of the last completed agent message (the spec reduction); ItemStarted
events carrying agent messages are ignored; the result is the empty string
when no completed agent message exists. -/
theorem extractFinalMessage_spec (events : List CodexEvent) :
    extractFinalMessage events = specFinalMessage events ∧
      (∀ item rest, extractFinalMessage (.itemStarted item :: rest) =
        extractFinalMessage rest) ∧
      extractFinalMessage [] = "" := by
  refine ⟨?_, ?_, rfl⟩
  · rw [extractFinalMessage, specFinalMessage, extract_fold_eq_filterMap]
    simp
  · intro item rest
    rw [extractFinalMessage, extractFinalMessage]
    cases item <;> rfl

/-- Once a call is resolved, no handler body runs any more. -/
theorem step_resolved (jsonDecode : String → Option CodexEvent)
    (opts : CallOptions) (s : CallState) (ev : ChildEvent)
    (h : s.resolved = true) : step jsonDecode opts s ev = s := by
  simp [step, h]

/-- Once a call is resolved, any further sequence of signals leaves its
state unchanged. -/
theorem runCall_resolved (jsonDecode : String → Option CodexEvent)
    (opts : CallOptions) (s : CallState) (evs : List ChildEvent)
    (h : s.resolved = true) : runCall jsonDecode opts s evs = s := by
  induction evs with
  | nil => rfl
  | cons ev rest ih =>
    simp only [runCall, List.foldl_cons, step_resolved jsonDecode opts s ev h]
    exact ih

/-- Claim C2: the finalize step is a one-shot latch.  From an unresolved
state, finalizing records the sanitised first outcome, cancels the deadline
timer, guarantees child cleanup, and releases the gate slot; a second
finalize attempt with any outcome is a no-op, and any further signals,
including a repeated close, leave the recorded result untouched. -/
theorem safeResolve_exactly_once (jsonDecode : String → Option CodexEvent)
    (opts : CallOptions) (s : CallState) (r rLater : CodexResult)
    (h : s.resolved = false) :
    safeResolve (safeResolve s r) rLater = safeResolve s r ∧
      (safeResolve s r).result = some (sanitizeResultDetails r) ∧
      (safeResolve s r).resolved = true ∧
      (safeResolve s r).timerCleared = true ∧
      (safeResolve s r).childKilled = true ∧
      (safeResolve s r).slotReleased = true ∧
      (∀ evs, runCall jsonDecode opts (safeResolve s r) evs = safeResolve s r) := by
  have h1 : safeResolve s r =
      { s with
          resolved := true
          timerCleared := true
          childKilled := true
          slotReleased := true
          result := some (sanitizeResultDetails r) } := by
    simp [safeResolve, h]
  refine ⟨?_, ?_, ?_, ?_, ?_, ?_, ?_⟩
  · rw [h1]; simp [safeResolve]
  · rw [h1]
  · rw [h1]
  · rw [h1]
  · rw [h1]
  · rw [h1]
  · intro evs
    exact runCall_resolved jsonDecode opts _ evs (by rw [h1])

/-- Witness for C2 at a fresh call state with two distinct outcomes. -/
theorem safeResolve_exactly_once_witness :
    initCallState.resolved = false ∧
      (safeResolve initCallState ⟨true, [], "done", [], [], none⟩).result =
        some (sanitizeResultDetails ⟨true, [], "done", [], [], none⟩) :=
  ⟨rfl, (safeResolve_exactly_once (fun _ => none) ⟨30000, false⟩ initCallState
    ⟨true, [], "done", [], [], none⟩ (failResult ⟨.unknown, "late", none⟩)
    rfl).2.1⟩

/-- Claim C7: a close carrying SIGTERM or SIGKILL on a not-yet-resolved
call resolves with the TIMEOUT error, whatever the exit code. -/
theorem signaled_close_is_timeout (jsonDecode : String → Option CodexEvent)
    (opts : CallOptions) (s : CallState) (exitCode : Option Int)
    (signal : Option String) (h : s.resolved = false)
    (hsig : signal = some "SIGTERM" ∨ signal = some "SIGKILL") :
    (step jsonDecode opts s (.closed exitCode signal)).result =
      some (failResult ⟨.timeout,
        "Codex CLI timeout after " ++ toString opts.timeoutMs ++ "ms", none⟩) ∧
      (step jsonDecode opts s (.closed exitCode signal)).resolved = true := by
  have hcond : (signal = some "SIGTERM" || signal = some "SIGKILL") = true := by
    rcases hsig with h2 | h2 <;> simp [h2]
  constructor
  · simp [step, h, onClosed, hcond, safeResolve, sanitizeResultDetails, failResult]
  · simp [step, h, onClosed, hcond, safeResolve]

/-- Witness for C7: SIGKILL with a nonzero exit code still reports
TIMEOUT. -/
theorem signaled_close_is_timeout_witness :
    initCallState.resolved = false ∧
      (step (fun _ => none) ⟨30000, false⟩ initCallState
        (.closed (some 1) (some "SIGKILL"))).result =
        some (failResult ⟨.timeout, "Codex CLI timeout after 30000ms", none⟩) :=
  ⟨rfl, (signaled_close_is_timeout (fun _ => none) ⟨30000, false⟩ initCallState
    (some 1) (some "SIGKILL") rfl (Or.inr rfl)).1⟩

/-- Byte length of a repeated character. -/
theorem byteLenL_replicate (n : Nat) (c : Char) :
    byteLenL (List.replicate n c) = n * c.utf8Size := by
  induction n with
  | zero => simp [byteLenL]
  | succ k ih => simp [List.replicate, byteLenL, ih]; ring

/-- The oversized test string is one byte over the cap. -/
theorem byteLen_bigA : byteLen bigA = maxOutputSize + 1 := by
  have h1 : ('a' : Char).utf8Size = 1 := by decide
  simp [byteLen, bigA, byteLenL_replicate, h1]

/-- Claim C4 (amended): when a stdout data chunk pushes the accumulated
stdout byte count over the cap, the call resolves immediately with the
OUTPUT_TOO_LARGE error whose details render that measured count, which is
at least the cap; exceeding the cap by one byte suffices. -/
theorem stdout_over_cap_resolves (jsonDecode : String → Option CodexEvent)
    (opts : CallOptions) (s : CallState) (d : String)
    (h : s.resolved = false)
    (hover : s.stdoutSize + byteLen d > maxOutputSize) :
    (step jsonDecode opts s (.stdoutData d)).resolved = true ∧
      (step jsonDecode opts s (.stdoutData d)).result =
        some (sanitizeResultDetails (outputTooLargeResult (s.stdoutSize + byteLen d))) ∧
      (outputTooLargeResult (s.stdoutSize + byteLen d)).error =
        some ⟨.outputTooLarge, "Output exceeds 1MB limit",
          some ("Output size: " ++ formatMB2 (s.stdoutSize + byteLen d) ++ "MB")⟩ ∧
      s.stdoutSize + byteLen d ≥ maxOutputSize := by
  refine ⟨?_, ?_, rfl, by omega⟩
  · simp [step, h, onStdoutData, hover, safeResolve]
  · simp [step, h, onStdoutData, hover, safeResolve]

/-- At the fresh state, the oversized chunk exceeds the stdout cap. -/
theorem init_stdout_over : initCallState.stdoutSize + byteLen bigA > maxOutputSize := by
  rw [byteLen_bigA]
  show 0 + (maxOutputSize + 1) > maxOutputSize
  omega

/-- At the fresh state, the oversized chunk lands one byte over the cap. -/
theorem init_stderr_size :
    initCallState.stderrSize + byteLen bigA = maxOutputSize + 1 := by
  rw [byteLen_bigA]
  show 0 + (maxOutputSize + 1) = maxOutputSize + 1
  omega

/-- Witness for C4 (amended): a single chunk of one byte more than the cap
resolves the fresh call with OUTPUT_TOO_LARGE. -/
theorem stdout_over_cap_resolves_witness :
    initCallState.resolved = false ∧
      initCallState.stdoutSize + byteLen bigA > maxOutputSize ∧
      (step (fun _ => none) ⟨30000, false⟩ initCallState (.stdoutData bigA)).result =
        some (sanitizeResultDetails
          (outputTooLargeResult (initCallState.stdoutSize + byteLen bigA))) :=
  ⟨rfl, init_stdout_over,
    (stdout_over_cap_resolves (fun _ => none) ⟨30000, false⟩ initCallState bigA
      rfl init_stdout_over).2.1⟩

/-- The stderr handler drops a chunk that lands over the cap, recording
only the size. -/
theorem onStderrData_drop (s : CallState) (d : String)
    (h : ¬ (s.stderrSize + byteLen d ≤ maxOutputSize)) :
    onStderrData s d = { s with stderrSize := s.stderrSize + byteLen d } := by
  unfold onStderrData
  simp [h]

/-- Counterexample for C4: a stderr channel exceeding the cap does not
terminate the call; the oversized chunk is merely dropped and a subsequent
clean exit still resolves with success. -/
theorem stderr_over_cap_not_fatal :
    (runCall (fun _ => none) ⟨30000, false⟩ initCallState
      [.stderrData bigA, .closed (some 0) none]).stderrSize > maxOutputSize ∧
      (runCall (fun _ => none) ⟨30000, false⟩ initCallState
        [.stderrData bigA, .closed (some 0) none]).result =
        some ⟨true, [], "", [], [], none⟩ := by
  have hnle : ¬ (initCallState.stderrSize + byteLen bigA ≤ maxOutputSize) := by
    rw [init_stderr_size]; omega
  have hstep1 : step (fun _ => none) ⟨30000, false⟩ initCallState (.stderrData bigA) =
      { initCallState with stderrSize := maxOutputSize + 1 } := by
    have e1 : step (fun _ => none) ⟨30000, false⟩ initCallState (.stderrData bigA) =
        onStderrData initCallState bigA := rfl
    rw [e1, onStderrData_drop initCallState bigA hnle, init_stderr_size]
  have hrun : runCall (fun _ => none) ⟨30000, false⟩ initCallState
      [.stderrData bigA, .closed (some 0) none] =
      step (fun _ => none) ⟨30000, false⟩
        { initCallState with stderrSize := maxOutputSize + 1 } (.closed (some 0) none) := by
    simp only [runCall, List.foldl_cons, List.foldl_nil, hstep1]
  rw [hrun]
  have hstep2 : step (fun _ => none) ⟨30000, false⟩
      { initCallState with stderrSize := maxOutputSize + 1 } (.closed (some 0) none) =
      { initCallState with
          resolved := true
          timerCleared := true
          childKilled := true
          slotReleased := true
          stderrSize := maxOutputSize + 1
          result := some ⟨true, [], "", [], [], none⟩ } := by
    decide
  rw [hstep2]
  refine ⟨?_, rfl⟩
  show maxOutputSize + 1 > maxOutputSize
  omega

/-- Sanitising the empty text is a no-op. -/
theorem sanitize_empty : sanitizeErrorOutput "" = "" := by decide

/-- The truthiness branch of the detail sanitisation collapses: an empty
detail string is its own sanitisation. -/
theorem detailsMap_eq (d : String) :
    (if d = "" then d else sanitizeErrorOutput d) = sanitizeErrorOutput d := by
  by_cases hz : d = ""
  · rw [hz]; simp [sanitize_empty]
  · simp [hz]

/-- Characterisation of the finalize-time sanitisation: only the optional
error details are rewritten; every other field is kept. -/
theorem sanitizeResultDetails_eq (r : CodexResult) :
    sanitizeResultDetails r = { r with error := r.error.map (fun e =>
      { e with details := e.details.map (fun d =>
          if d = "" then d else sanitizeErrorOutput d) }) } := by
  cases r with
  | mk su ev fm fc cr er =>
    cases er with
    | none => simp [sanitizeResultDetails]
    | some e =>
      cases e with
      | mk code msg det =>
        cases det with
        | none => simp [sanitizeResultDetails]
        | some d =>
          by_cases hz : d = ""
          · simp [sanitizeResultDetails, hz]
          · simp [sanitizeResultDetails, hz]

/-- Claim C5 (amended): the finalize step passes error details, when
present, through sanitizeErrorOutput, while the final message and the rest
of the payload are returned exactly as produced, without sanitisation. -/
theorem safeResolve_sanitizes_details_only (s : CallState) (r : CodexResult)
    (h : s.resolved = false) :
    ∃ rr, (safeResolve s r).result = some rr ∧
      rr.success = r.success ∧ rr.events = r.events ∧
      rr.finalMessage = r.finalMessage ∧
      rr.filesChanged = r.filesChanged ∧ rr.commandsRun = r.commandsRun ∧
      (r.error = none → rr.error = none) ∧
      (∀ e, r.error = some e → ∃ ee, rr.error = some ee ∧
        ee.code = e.code ∧ ee.message = e.message ∧
        ee.details = e.details.map sanitizeErrorOutput) := by
  refine ⟨sanitizeResultDetails r, by simp [safeResolve, h], ?_, ?_, ?_, ?_, ?_, ?_, ?_⟩
  · rw [sanitizeResultDetails_eq]
  · rw [sanitizeResultDetails_eq]
  · rw [sanitizeResultDetails_eq]
  · rw [sanitizeResultDetails_eq]
  · rw [sanitizeResultDetails_eq]
  · intro h0
    rw [sanitizeResultDetails_eq]
    simp [h0]
  · intro e he
    rw [sanitizeResultDetails_eq]
    refine ⟨{ e with details := e.details.map (fun d =>
        if d = "" then d else sanitizeErrorOutput d) }, ?_, rfl, rfl, ?_⟩
    · simp [he]
    · cases hd : e.details with
      | none => simp [hd]
      | some d => simp [hd, detailsMap_eq]

/-- Witness for C5 (amended): a failure with sensitive details from the
fresh state. -/
theorem safeResolve_sanitizes_details_only_witness :
    initCallState.resolved = false ∧
      ∃ rr, (safeResolve initCallState
        (failResult ⟨.executionFailed, "boom", some "at /home/alice"⟩)).result =
          some rr ∧
        rr.success = false ∧
        ∃ ee, rr.error = some ee ∧ ee.details = some (sanitizeErrorOutput "at /home/alice") := by
  refine ⟨rfl, ?_⟩
  obtain ⟨rr, h1, h2, _, _, _, _, _, h8⟩ :=
    safeResolve_sanitizes_details_only initCallState
      (failResult ⟨.executionFailed, "boom", some "at /home/alice"⟩) rfl
  obtain ⟨ee, he1, _, _, he4⟩ := h8 _ rfl
  exact ⟨rr, h1, h2, ee, he1, by simpa using he4⟩

/-- Counterexample for C5: a success result carries the raw stdout text as
the final message; a sensitive home-directory fragment in the output
reaches the caller unredacted even though the sanitizer would have
redacted it. -/
theorem finalMessage_not_sanitized :
    (runCall (fun _ => none) ⟨30000, false⟩ initCallState
      [.stdoutData "saved at /home/alice/key.pem", .closed (some 0) none]).result =
      some ⟨true, [], "saved at /home/alice/key.pem", [], [], none⟩ ∧
      sanitizeErrorOutput "saved at /home/alice/key.pem" ≠
        "saved at /home/alice/key.pem" := by
  decide

/-- A position with no pattern match scans to itself for any fuel. -/
theorem replaceMatchesF_id (pat : List Char → Option Nat) (fuel : Nat)
    (l : List Char) (h : anyPosMatch pat l = false) :
    replaceMatchesF pat fuel l = l := by
  induction fuel generalizing l with
  | zero => rfl
  | succ k ih =>
    cases l with
    | nil => rfl
    | cons c cs =>
      have h2 : (pat (c :: cs)).isSome = false ∧ anyPosMatch pat cs = false := by
        simpa [anyPosMatch] using h
      have hnone : pat (c :: cs) = none :=
        Option.not_isSome_iff_eq_none.mp (by simp [h2.1])
      simp [replaceMatchesF, hnone, ih cs h2.2]

/-- A pattern with no match anywhere leaves the text unchanged. -/
theorem replaceAllPat_id (pat : List Char → Option Nat) (s : String)
    (h : anyPosMatch pat s.data = false) : replaceAllPat pat s = s := by
  unfold replaceAllPat replaceMatches
  rw [replaceMatchesF_id pat _ _ h]

/-- Text in which no sensitive pattern matches is a fixed point of the
sanitizer. -/
theorem sanitize_fixed_of_clean (s : String) (h : hasSensitiveMatch s = false) :
    sanitizeErrorOutput s = s := by
  have h7 : ∀ p ∈ sensitivePatterns, anyPosMatch p s.data = false := by
    intro p hp
    have hx := h
    rw [hasSensitiveMatch] at hx
    rw [List.any_eq_false] at hx
    simpa using hx p hp
  rw [sanitizeErrorOutput]
  simp only [sensitivePatterns, List.foldl_cons, List.foldl_nil]
  rw [replaceAllPat_id tryHome s (h7 tryHome (by simp [sensitivePatterns]))]
  rw [replaceAllPat_id tryUsers s (h7 tryUsers (by simp [sensitivePatterns]))]
  rw [replaceAllPat_id tryRoot s (h7 tryRoot (by simp [sensitivePatterns]))]
  rw [replaceAllPat_id tryEmail s (h7 tryEmail (by simp [sensitivePatterns]))]
  rw [replaceAllPat_id tryCred s (h7 tryCred (by simp [sensitivePatterns]))]
  rw [replaceAllPat_id trySk s (h7 trySk (by simp [sensitivePatterns]))]
  rw [replaceAllPat_id tryGhp s (h7 tryGhp (by simp [sensitivePatterns]))]

/-- Claim C6 (amended): idempotence holds under a sufficient condition
rather than unconditionally: for every input whose sanitized output
contains no remaining occurrence of any sensitive pattern, re-sanitising
is a no-op.  Unconditional idempotence fails, since a replacement can
enable an earlier-ordered pattern on the second pass. -/
theorem sanitize_idempotent_on_clean_output (x : String)
    (h : hasSensitiveMatch (sanitizeErrorOutput x) = false) :
    sanitizeErrorOutput (sanitizeErrorOutput x) = sanitizeErrorOutput x :=
  sanitize_fixed_of_clean _ h

/-- Witness for C6 (amended) on a home-directory fragment. -/
theorem sanitize_idempotent_on_clean_output_witness :
    hasSensitiveMatch (sanitizeErrorOutput "error at /home/bob/code") = false ∧
      sanitizeErrorOutput (sanitizeErrorOutput "error at /home/bob/code") =
        sanitizeErrorOutput "error at /home/bob/code" :=
  ⟨by decide, sanitize_idempotent_on_clean_output _ (by decide)⟩

/-- Counterexample for C6: redacting the credential assignment after the
literal root home creates a fresh word boundary, so a second sanitisation
pass redacts strictly more. -/
theorem sanitize_not_idempotent :
    sanitizeErrorOutput "/rootkey=v" = "/root[REDACTED]" ∧
      sanitizeErrorOutput (sanitizeErrorOutput "/rootkey=v") =
        "[REDACTED][REDACTED]" ∧
      sanitizeErrorOutput (sanitizeErrorOutput "/rootkey=v") ≠
        sanitizeErrorOutput "/rootkey=v" := by
  decide

/-- takeWhile runs through a block of characters that all satisfy the
predicate. -/
theorem takeWhile_append_all {p : Char → Bool} (l1 l2 : List Char)
    (h : ∀ c ∈ l1, p c = true) :
    (l1 ++ l2).takeWhile p = l1 ++ l2.takeWhile p := by
  induction l1 with
  | nil => simp
  | cons c cs ih =>
    simp only [List.cons_append, List.takeWhile_cons, h c (by simp)]
    rw [ih fun x hx => h x (by simp [hx])]
    simp

/-- takeWhile keeps a list all of whose characters satisfy the predicate. -/
theorem takeWhile_all {p : Char → Bool} (l : List Char)
    (h : ∀ c ∈ l, p c = true) : l.takeWhile p = l := by
  have := takeWhile_append_all l [] h
  simpa using this

/-- A matcher that refuses every position whose head is not a slash never
matches inside slash-free text. -/
theorem anyPosMatch_false_of_noSlash (pat : List Char → Option Nat)
    (hpat : ∀ c cs, c ≠ '/' → pat (c :: cs) = none)
    (l : List Char) (hl : '/' ∉ l) : anyPosMatch pat l = false := by
  induction l with
  | nil => rfl
  | cons c cs ih =>
    have hc : c ≠ '/' := fun h => hl (h ▸ List.mem_cons_self c cs)
    simp [anyPosMatch, hpat c cs hc, ih fun h => hl (List.mem_cons_of_mem c h)]

/-- The home-directory matcher requires a leading slash. -/
theorem tryHome_none_of_head (c : Char) (cs : List Char) (h : c ≠ '/') :
    tryHome (c :: cs) = none := by
  have e : (c :: cs).take 6 = c :: cs.take 5 := rfl
  have hne : (c :: cs).take 6 ≠ ['/', 'h', 'o', 'm', 'e', '/'] := by
    rw [e]; intro heq; injection heq with h1 _; exact h h1
  rw [tryHome, if_neg hne]

/-- The macOS home matcher requires a leading slash. -/
theorem tryUsers_none_of_head (c : Char) (cs : List Char) (h : c ≠ '/') :
    tryUsers (c :: cs) = none := by
  have e : (c :: cs).take 7 = c :: cs.take 6 := rfl
  have hne : (c :: cs).take 7 ≠ ['/', 'U', 's', 'e', 'r', 's', '/'] := by
    rw [e]; intro heq; injection heq with h1 _; exact h h1
  rw [tryUsers, if_neg hne]

/-- The root-home matcher requires a leading slash. -/
theorem tryRoot_none_of_head (c : Char) (cs : List Char) (h : c ≠ '/') :
    tryRoot (c :: cs) = none := by
  have e : (c :: cs).take 5 = c :: cs.take 4 := rfl
  have hne : (c :: cs).take 5 ≠ ['/', 'r', 'o', 'o', 't'] := by
    rw [e]; intro heq; injection heq with h1 _; exact h h1
  rw [tryRoot, if_neg hne]

/-- The email matcher consumes a whole well-formed address in one match. -/
theorem tryEmail_full (l d : List Char) (hl : l ≠ []) (hd : d ≠ [])
    (hcl : ∀ c ∈ l, isEmailLocalChar c = true)
    (hcd : ∀ c ∈ d, isEmailDomainChar c = true) :
    tryEmail (l ++ '@' :: d) = some (l.length + 1 + d.length) := by
  have hat : isEmailLocalChar '@' = false := by decide
  have ht : (l ++ '@' :: d).takeWhile isEmailLocalChar = l := by
    rw [takeWhile_append_all l ('@' :: d) hcl]
    simp [List.takeWhile_cons, hat]
  have hlen : l.length ≠ 0 := fun h0 => hl (List.length_eq_zero.mp h0)
  have hdrop : (l ++ '@' :: d).drop l.length = '@' :: d := List.drop_left l ('@' :: d)
  have hdlen : d.length ≠ 0 := fun h0 => hd (List.length_eq_zero.mp h0)
  simp only [tryEmail, ht, hlen, hdrop, if_false, takeWhile_all d hcd, hdlen]

/-- The matched length is never zero, so the scanner with empty remainder
stays empty for any fuel. -/
theorem replaceMatchesF_nil (pat : List Char → Option Nat) (fuel : Nat) :
    replaceMatchesF pat fuel [] = [] := by
  cases fuel <;> rfl

/-- Replacing the email pattern in a whole well-formed address yields
exactly the replacement token. -/
theorem replaceMatches_email (l d : List Char) (hl : l ≠ []) (hd : d ≠ [])
    (hcl : ∀ c ∈ l, isEmailLocalChar c = true)
    (hcd : ∀ c ∈ d, isEmailDomainChar c = true) :
    replaceMatches tryEmail (l ++ '@' :: d) = redactedTok.data := by
  cases l with
  | nil => exact absurd rfl hl
  | cons c cs =>
    have hmatch : tryEmail ((c :: cs) ++ '@' :: d) =
        some ((c :: cs).length + 1 + d.length) :=
      tryEmail_full (c :: cs) d hl hd hcl hcd
    have hrest : (c :: cs) ++ '@' :: d = c :: (cs ++ '@' :: d) := rfl
    have hlenfuel : ((c :: cs) ++ '@' :: d).length = (cs ++ '@' :: d).length + 1 := by
      simp [List.length_append]
    rw [replaceMatches, hlenfuel, hrest]
    rw [hrest] at hmatch
    simp only [replaceMatchesF, hmatch]
    have hdropall : (cs ++ '@' :: d).drop ((c :: cs).length + 1 + d.length - 1) = [] := by
      have h1 : (c :: cs).length + 1 + d.length - 1 = (cs ++ '@' :: d).length := by
        simp [List.length_append]
        omega
      rw [h1, List.drop_length]
    rw [hdropall, replaceMatchesF_nil]
    simp

/-- Nonempty strings have nonempty character lists. -/
theorem data_ne_nil_of_ne_empty (s : String) (h : s ≠ "") : s.data ≠ [] := by
  intro h0
  apply h
  have he : s = String.mk s.data := rfl
  rw [he, h0]

/-- Claim C10: sanitizeErrorOutput replaces a whole email-shaped text, a
nonempty local part over the local character class, an at sign, and a
nonempty domain over the domain class, with the single replacement token:
the email redaction class is active even though the spec does not list
it. -/
theorem sanitize_redacts_email (l d : String) (hl : l ≠ "") (hd : d ≠ "")
    (hcl : ∀ c ∈ l.data, isEmailLocalChar c = true)
    (hcd : ∀ c ∈ d.data, isEmailDomainChar c = true) :
    sanitizeErrorOutput (l ++ "@" ++ d) = "[REDACTED]" := by
  have hdata : (l ++ "@" ++ d).data = l.data ++ '@' :: d.data := by
    simp [String.data_append]
  have hl' : l.data ≠ [] := data_ne_nil_of_ne_empty l hl
  have hd' : d.data ≠ [] := data_ne_nil_of_ne_empty d hd
  have hnos : '/' ∉ (l ++ "@" ++ d).data := by
    rw [hdata]
    intro hmem
    rcases List.mem_append.mp hmem with hm | hm
    · have := hcl '/' hm
      simp [isEmailLocalChar] at this
    · rcases List.mem_cons.mp hm with hm2 | hm2
      · exact absurd hm2.symm (by decide)
      · have := hcd '/' hm2
        simp [isEmailDomainChar] at this
  have hemail : replaceAllPat tryEmail (l ++ "@" ++ d) = "[REDACTED]" := by
    rw [replaceAllPat, hdata, replaceMatches_email l.data d.data hl' hd' hcl hcd]
    rfl
  rw [sanitizeErrorOutput]
  simp only [sensitivePatterns, List.foldl_cons, List.foldl_nil]
  rw [replaceAllPat_id tryHome _ (anyPosMatch_false_of_noSlash tryHome
    tryHome_none_of_head _ hnos)]
  rw [replaceAllPat_id tryUsers _ (anyPosMatch_false_of_noSlash tryUsers
    tryUsers_none_of_head _ hnos)]
  rw [replaceAllPat_id tryRoot _ (anyPosMatch_false_of_noSlash tryRoot
    tryRoot_none_of_head _ hnos)]
  rw [hemail]
  decide

/-- Witness for C10 on a concrete address. -/
theorem sanitize_redacts_email_witness :
    ("alice" : String) ≠ "" ∧ ("example.com" : String) ≠ "" ∧
      (∀ c ∈ ("alice" : String).data, isEmailLocalChar c = true) ∧
      (∀ c ∈ ("example.com" : String).data, isEmailDomainChar c = true) ∧
      sanitizeErrorOutput ("alice" ++ "@" ++ "example.com") = "[REDACTED]" :=
  ⟨by decide, by decide, by decide, by decide,
    sanitize_redacts_email "alice" "example.com" (by decide) (by decide)
      (by decide) (by decide)⟩

/-- A string extended past a path separator starts with the extended
root. -/
theorem strStartsWith_append (a b : String) : strStartsWith a (a ++ b) = true := by
  rw [strStartsWith, String.data_append]
  exact List.isPrefixOf_iff_prefix.mpr (List.prefix_append a.data b.data)

/-- The boundary check refuses the sibling directory: the extended root
slash meets the letter n of username. -/
theorem startsWith_false_username (s : String) :
    strStartsWith "/home/user/" ("/home/username" ++ s) = false := by
  rw [strStartsWith, String.data_append]
  rfl

/-- No extension of the sibling real path equals the allowed root. -/
theorem username_ne_user (s : String) : "/home/username" ++ s ≠ "/home/user" := by
  intro heq
  have hlen := congrArg String.length heq
  rw [String.length_append] at hlen
  have h14 : ("/home/username" : String).length = 14 := by decide
  have h10 : ("/home/user" : String).length = 10 := by decide
  rw [h14, h10] at hlen
  omega

/-- The allowed root normalises to itself whatever the working
directory. -/
theorem resolvePath_home_user (cwd : String) :
    resolvePath cwd "/home/user" = "/home/user" := by
  have h : strStartsWith "/" "/home/user" = true := by decide
  simp only [resolvePath, h, if_true]
  decide

/-- Claim C1: validateWorkingDir accepts an input exactly when it is
nonempty after trimming, its resolved form exists, and its
symlink-resolved real path equals a normalised allowed root or extends one
past a path separator; with allowed root /home/user every real path under
/home/username is rejected and every real path under /home/user is
accepted. -/
theorem validateWorkingDir_boundary (fs : FileSystem) (cwd p : String)
    (R : List String) :
    ((validateWorkingDir fs cwd p R).valid = true ↔
      (jsTrim p ≠ "" ∧ fs.existsPath (resolvePath cwd p) = true ∧
        ∃ rp, fs.realpath (resolvePath cwd p) = some rp ∧
          ∃ r ∈ R, rp = resolvePath cwd r ∨
            strStartsWith (resolvePath cwd r ++ "/") rp = true)) ∧
      (∀ s rp, fs.realpath (resolvePath cwd p) = some rp →
        rp = "/home/username" ++ s →
        (validateWorkingDir fs cwd p ["/home/user"]).valid = false) ∧
      (∀ s rp, jsTrim p ≠ "" → fs.existsPath (resolvePath cwd p) = true →
        fs.realpath (resolvePath cwd p) = some rp →
        rp = "/home/user/" ++ s →
        (validateWorkingDir fs cwd p ["/home/user"]).valid = true) := by
  refine ⟨?_, ?_, ?_⟩
  · by_cases h1 : jsTrim p = ""
    · simp [validateWorkingDir, h1]
    · rw [validateWorkingDir, if_neg h1]
      by_cases h2 : fs.existsPath (resolvePath cwd p) = true
      · rw [if_pos h2]
        cases h3 : fs.realpath (resolvePath cwd p) with
        | none => simp [h1, h2, h3]
        | some rp =>
          dsimp only
          by_cases h4 : (R.any fun root =>
              rp == resolvePath cwd root ||
                strStartsWith (resolvePath cwd root ++ "/") rp) = true
          · rw [if_pos h4]
            refine iff_of_true rfl ⟨h1, h2, rp, rfl, ?_⟩
            rw [List.any_eq_true] at h4
            obtain ⟨r, hr, hcond⟩ := h4
            rw [Bool.or_eq_true, beq_iff_eq] at hcond
            exact ⟨r, hr, hcond⟩
          · rw [if_neg h4]
            refine iff_of_false (by simp) ?_
            rintro ⟨_, _, rp2, hrp2, r, hr, hcond⟩
            injection hrp2 with hrp2
            subst hrp2
            apply h4
            rw [List.any_eq_true]
            refine ⟨r, hr, ?_⟩
            rw [Bool.or_eq_true, beq_iff_eq]
            exact hcond
      · rw [if_neg h2]
        refine iff_of_false (by simp) ?_
        rintro ⟨_, hex, _⟩
        exact h2 hex
  · intro s rp h3 hrp
    by_cases h1 : jsTrim p = ""
    · simp [validateWorkingDir, h1]
    · rw [validateWorkingDir, if_neg h1]
      by_cases h2 : fs.existsPath (resolvePath cwd p) = true
      · rw [if_pos h2, h3]
        dsimp only
        have hbeq : (rp == resolvePath cwd "/home/user") = false := by
          rw [beq_eq_false_iff_ne, resolvePath_home_user, hrp]
          exact username_ne_user s
        have hsw : strStartsWith (resolvePath cwd "/home/user" ++ "/") rp = false := by
          rw [resolvePath_home_user, hrp]
          have he : ("/home/user" : String) ++ "/" = "/home/user/" := by decide
          rw [he]
          exact startsWith_false_username s
        simp [List.any_cons, hbeq, hsw]
      · rw [if_neg h2]
  · intro s rp h1 h2 h3 hrp
    rw [validateWorkingDir, if_neg h1, if_pos h2, h3]
    dsimp only
    have hsw : strStartsWith (resolvePath cwd "/home/user" ++ "/") rp = true := by
      rw [resolvePath_home_user, hrp]
      have he : ("/home/user" : String) ++ "/" = "/home/user/" := by decide
      rw [he]
      exact strStartsWith_append "/home/user/" s
    simp [List.any_cons, hsw]

/-- Witness for C1 on a one-element filesystem view and a path inside the
allowed root. -/
theorem validateWorkingDir_boundary_witness :
    jsTrim "/home/user/projects" ≠ "" ∧
      (validateWorkingDir ⟨fun _ => true, fun q => some q⟩ "/cwd"
        "/home/user/projects" ["/home/user"]).valid = true := by
  have hres : resolvePath "/cwd" "/home/user/projects" = "/home/user/projects" := by
    decide
  refine ⟨by decide, ?_⟩
  have h := (validateWorkingDir_boundary ⟨fun _ => true, fun q => some q⟩ "/cwd"
    "/home/user/projects" ["/home/user"]).2.2 "projects" "/home/user/projects"
    (by decide) (by rw [hres]) (by rw [hres]) (by decide)
  exact h

end CodexOrch



